import Mathlib

/-!
Shallow embedding of the drum-map converter (src/convert-drm-to-text.ts).

The embedding models the order-resolver core and the per-file conversion
payload.  JavaScript strings are modelled as Lean `String`s (lists of
characters); `String.prototype.toLowerCase` is modelled per-character by
`Char.toLower`, which agrees with JavaScript on the ASCII data the program
manipulates.  The DOM extraction layer (jsdom queries) is out of scope: the
conversion function takes the extracted header, entry list and explicit
order list as parameters, as the design notes of the original direct.
-/

namespace DrmConvert

/-- Source type `NoteAndName = { note: string; name: string }`. -/
structure NoteAndName where
  note : String
  name : String
  deriving DecidableEq

/-- Source type `PreferredOrderGrouping = { key: string; order: number; notes: string[] }`. -/
structure PreferredOrderGrouping where
  key : String
  order : Int
  notes : List String
  deriving DecidableEq

/-- The literal `PREFERRED_ORDERS` table from the source, including its
trailing `.reverse()`: index 0 is lowest priority. -/
def PREFERRED_ORDERS : List String :=
  [ "hat",
    "kick",
    "kick 2",
    "kick 1",
    "snare",
    "crash 3",
    "crash 2",
    "crash 1",
    "crash",
    "ride",
    "ride 3",
    "ride 2",
    "ride 1",
    "splash 2",
    "splash 1",
    "splash",
    "cymbal 4",
    "cymbal 3",
    "cymbal 2",
    "cymbal 1",
    "cymbal",
    "racktom 4",
    "racktom 3",
    "racktom 2",
    "racktom 1",
    "racktom",
    "floortom 4",
    "floortom 3",
    "floortom 2",
    "floortom 1",
    "floortom" ].reverse

/-- The longest prefix of `l` ending at the last right bracket of `l`
(meaningful when `l` contains a right bracket). -/
def upToLastRB (l : List Char) : List Char :=
  (l.reverse.dropWhile (fun c => !(c == ']'))).reverse

/-- Model of the JavaScript regular-expression match used by the source
on each entry name.  The pattern is a left bracket, a greedy run of
non-newline characters, then a right bracket: the match starts at the first
left bracket that is followed (with no intervening newline) by a right
bracket, and extends greedily to the last such right bracket. -/
def bracketScan : List Char → Option (List Char)
  | [] => none
  | c :: rest =>
    if c == '[' && ((rest.takeWhile (fun d => !(d == '\n'))).contains ']') then
      some ('[' :: upToLastRB (rest.takeWhile (fun d => !(d == '\n'))))
    else bracketScan rest

/-- Model of the source's whole-match value (index 0 of the regex match):
the matched bracketed substring of an entry name, or `none` when the name
has no such match. -/
def jsGroupKey (name : String) : Option String :=
  (bracketScan name.data).map List.asString

/-- Model of `s.match(digit-run)?.[0]`: the first maximal run of digit
characters in `l`, or `none` when `l` has no digit. -/
def firstDigitRun (l : List Char) : Option (List Char) :=
  match l.dropWhile (fun c => !c.isDigit) with
  | [] => none
  | c :: rest => some ((c :: rest).takeWhile Char.isDigit)

/-- Model of JavaScript `String.prototype.includes`: does `needle` occur as
a contiguous substring of the second list? -/
def jsIncludes (needle : List Char) : List Char → Bool
  | [] => needle.isEmpty
  | c :: rest => needle.isPrefixOf (c :: rest) || jsIncludes needle rest

/-- The predicate passed to `findIndex` over `PREFERRED_ORDERS` in
`groupByPreferred`: strip the digits from the preference token and
lower-case it, require it to be a substring of the lower-cased group key,
then, when the token did contain digits, additionally require the first
digit run of the raw group key to equal the first digit run of the token. -/
def instMatches (curGroupKey instrument : String) : Bool :=
  let curGroupKeyLower := curGroupKey.data.map Char.toLower
  let instWithoutNum := (instrument.data.filter (fun c => !c.isDigit)).map Char.toLower
  if jsIncludes instWithoutNum curGroupKeyLower then
    if instWithoutNum.length = instrument.data.length then true
    else decide (firstDigitRun curGroupKey.data = firstDigitRun instrument.data)
  else false

/-- Index of the first element satisfying `p`, if any. -/
def findIdxOpt (p : α → Bool) : List α → Option Nat
  | [] => none
  | a :: l => if p a then some 0 else (findIdxOpt p l).map (· + 1)

/-- JavaScript `Array.prototype.findIndex`: first matching index, `-1` when
no element matches. -/
def jsFindIndex (p : α → Bool) (l : List α) : Int :=
  match findIdxOpt p l with
  | some i => (i : Int)
  | none => -1

/-- The `preferredOrder` computed for a newly seen group key. -/
def preferredOrderOf (curGroupKey : String) : Int :=
  jsFindIndex (fun instrument => instMatches curGroupKey instrument) PREFERRED_ORDERS

/-- One step of the accumulating `reduce` in `groupByPreferred`: find the
first group with the given key and push the note into it, or append a fresh
group (with its preference rank) when no group has the key yet. -/
def insertNote (k : String) (note : String) :
    List PreferredOrderGrouping → List PreferredOrderGrouping
  | [] => [{ key := k, order := preferredOrderOf k, notes := [note] }]
  | g :: gs =>
    if g.key = k then { g with notes := g.notes ++ [note] } :: gs
    else g :: insertNote k note gs

/-- The accumulating `reduce` of `groupByPreferred`, with its accumulator
made explicit: scan the entries left to right, skip those whose name has no
bracketed substring, and accumulate groups keyed by the exact bracketed
substring. -/
def buildGroupsAux (allGroups : List PreferredOrderGrouping) :
    List NoteAndName → List PreferredOrderGrouping
  | [] => allGroups
  | e :: rest =>
    match jsGroupKey e.name with
    | none => buildGroupsAux allGroups rest
    | some k => buildGroupsAux (insertNote k e.note allGroups) rest

/-- The grouping pass of `groupByPreferred`, started on the empty
accumulator as in the source `reduce(..., [])`. -/
def buildGroups (notesAndNames : List NoteAndName) : List PreferredOrderGrouping :=
  buildGroupsAux [] notesAndNames

/-- The comparator passed to `Array.prototype.sort` in the source: any
group of order `-1` compares below everything, otherwise ascending order. -/
def compareGroups (a b : PreferredOrderGrouping) : Int :=
  if a.order = -1 then -1
  else if b.order = -1 then 1
  else if a.order > b.order then 1
  else if a.order < b.order then -1
  else 0

/-- Non-strict order induced by the comparator. -/
def groupLe (a b : PreferredOrderGrouping) : Prop := compareGroups a b ≤ 0

instance : DecidableRel groupLe :=
  fun a b => inferInstanceAs (Decidable (compareGroups a b ≤ 0))

instance : IsTotal PreferredOrderGrouping groupLe :=
  ⟨fun a b => by
    simp only [groupLe, compareGroups]
    split_ifs <;> omega⟩

instance : IsTrans PreferredOrderGrouping groupLe :=
  ⟨fun a b c hab hbc => by
    simp only [groupLe, compareGroups] at hab hbc ⊢
    split_ifs at hab hbc ⊢ <;> omega⟩

/-- Model of the `groups.sort(...)` call.  `Array.prototype.sort` is a
stable sort; we model it with stable insertion sort.  (For pairs of groups
that both have order `-1` the source comparator is inconsistent, so their
relative order is implementation-defined in JavaScript; no theorem below
depends on the relative order of two order-`-1` groups.) -/
def sortGroups (gs : List PreferredOrderGrouping) : List PreferredOrderGrouping :=
  List.insertionSort groupLe gs

/-- The sorted group list produced inside `groupByPreferred`. -/
def inferredGroups (notesAndNames : List NoteAndName) : List PreferredOrderGrouping :=
  sortGroups (buildGroups notesAndNames)

/-- Source function `groupByPreferred`: group the entries by bracketed tag,
sort the groups with the comparator, and emit one line per note. -/
def groupByPreferred (notesAndNames : List NoteAndName) : List String :=
  ((inferredGroups notesAndNames).map (fun g => g.notes.map (fun note => "NO " ++ note))).flatten

/-- The accumulating `reduce` over the explicit order items in
`convertDRMFileToText`, accumulator explicit: keep a value only when some
entry has it as its note, and prefix it with the line marker. -/
def explicitOrderAux (notesAndNames : List NoteAndName)
    (filteredOrderItems : List String) : List String → List String
  | [] => filteredOrderItems
  | orderValue :: rest =>
    if notesAndNames.any (fun e => e.note == orderValue) then
      explicitOrderAux notesAndNames (filteredOrderItems ++ ["NO " ++ orderValue]) rest
    else explicitOrderAux notesAndNames filteredOrderItems rest

/-- Explicit-mode order items of `convertDRMFileToText`: the explicit order
list filtered to values matching some entry note, each prefixed by the line
marker, in source order. -/
def explicitOrderItems (notesAndNames : List NoteAndName) (explicitOrder : List String) :
    List String :=
  explicitOrderAux notesAndNames [] explicitOrder

/-- The flat note/name block of the payload. -/
def notesAndNamesAsStrings (notesAndNames : List NoteAndName) : List String :=
  notesAndNames.map (fun e => e.note ++ " " ++ e.name)

/-- JavaScript template-literal interpolation of the possibly-absent header
value: interpolating `undefined` produces the string "undefined". -/
def templateInterp : Option String → String
  | none => "undefined"
  | some s => s

/-- The final text payload built by the template literal of the source. -/
def payloadText (headerName : Option String) (notesAndNames : List NoteAndName)
    (orderItems : List String) : String :=
  "# " ++ templateInterp headerName ++ "\n"
    ++ String.intercalate "\n" (notesAndNamesAsStrings notesAndNames)
    ++ "\n# Grouped order\n"
    ++ String.intercalate "\n" orderItems
    ++ "\n"

/-- The first line of a text payload. -/
def firstLine (s : String) : String :=
  (s.data.takeWhile (fun c => !(c == '\n'))).asString

/-- Source function `convertDRMFileToText`, modelled at the resolver
boundary: the extracted header, entries and explicit order are parameters,
the grouping-mode flag is threaded explicitly, and the explicit-mode
`assert.equal` failure is modelled by `none`. -/
def convertDRMFileToText (headerName : Option String) (notesAndNames : List NoteAndName)
    (usePreferredGrouping : Bool) (explicitOrder : List String) : Option String :=
  let orderItems :=
    if usePreferredGrouping then groupByPreferred notesAndNames
    else explicitOrderItems notesAndNames explicitOrder
  if usePreferredGrouping = false ∧ ¬orderItems.length = notesAndNames.length then none
  else some (payloadText headerName notesAndNames orderItems)

/-! Characterizations used by the proofs below (not part of the source). -/

/-- Append to a group the notes that the remaining entries `l` will
contribute to it. -/
def pushAll (l : List NoteAndName) (g : PreferredOrderGrouping) : PreferredOrderGrouping :=
  { g with
    notes := g.notes
      ++ (l.filter (fun e => jsGroupKey e.name == some g.key)).map (fun e => e.note) }

/-- Closed form of the grouping pass: the groups created for keys not in
`seen`, in first-seen order, each already holding all of its notes. -/
def freshGroups : List NoteAndName → List String → List PreferredOrderGrouping
  | [], _ => []
  | e :: l, seen =>
    match jsGroupKey e.name with
    | none => freshGroups l seen
    | some k =>
      if k ∈ seen then freshGroups l seen
      else
        { key := k, order := preferredOrderOf k,
          notes := e.note
            :: (l.filter (fun e2 => jsGroupKey e2.name == some k)).map (fun e2 => e2.note) }
          :: freshGroups l (seen ++ [k])

/-- The three-entry example input of the specification. -/
def exampleEntries : List NoteAndName :=
  [⟨"1", "Kick [Kick]"⟩, ⟨"2", "Hat [Hat]"⟩, ⟨"3", "Unknown [Foo]"⟩]

/-! ### Helper lemmas about the bracket-tag match -/

theorem takeWhile_append_of_forall {p : Char → Bool} (l₁ l₂ : List Char)
    (h : ∀ c ∈ l₁, p c = true) :
    (l₁ ++ l₂).takeWhile p = l₁ ++ l₂.takeWhile p := by
  induction l₁ with
  | nil => simp
  | cons c cs ih =>
    have hc := h c (List.mem_cons_self c cs)
    simp only [List.cons_append, List.takeWhile_cons, hc, if_true]
    rw [ih (fun d hd => h d (List.mem_cons_of_mem c hd))]

theorem dropWhile_append_of_forall {p : Char → Bool} (l₁ l₂ : List Char)
    (h : ∀ c ∈ l₁, p c = true) :
    (l₁ ++ l₂).dropWhile p = l₂.dropWhile p := by
  induction l₁ with
  | nil => simp
  | cons c cs ih =>
    have hc := h c (List.mem_cons_self c cs)
    simp only [List.cons_append, List.dropWhile_cons, hc, if_true]
    exact ih (fun d hd => h d (List.mem_cons_of_mem c hd))

theorem upToLastRB_append (mid post : List Char) (hpost : ']' ∉ post) :
    upToLastRB (mid ++ ']' :: post) = mid ++ [']'] := by
  unfold upToLastRB
  rw [List.reverse_append, List.reverse_cons, List.append_assoc, List.singleton_append,
    dropWhile_append_of_forall _ _ ?hall]
  case hall =>
    intro c hc
    have hne : ¬c = ']' := fun e => hpost (e ▸ List.mem_reverse.mp hc)
    simp [hne]
  simp [List.dropWhile_cons]

theorem bracketScan_append (pre mid post : List Char)
    (hpre : '[' ∉ pre) (hmid : '\n' ∉ mid) (hpost : ']' ∉ post) :
    bracketScan (pre ++ '[' :: (mid ++ ']' :: post)) = some ('[' :: (mid ++ [']'])) := by
  induction pre with
  | nil =>
    rw [List.nil_append]
    have hseg : (mid ++ ']' :: post).takeWhile (fun d => !(d == '\n'))
        = mid ++ ']' :: post.takeWhile (fun d => !(d == '\n')) := by
      rw [takeWhile_append_of_forall _ _ (fun c hc => by
        have : ¬c = '\n' := fun e => hmid (e ▸ hc)
        simp [this])]
      simp [List.takeWhile_cons]
    have hmem : ']' ∉ post.takeWhile (fun d => !(d == '\n')) :=
      fun hm => hpost ((List.takeWhile_sublist _).subset hm)
    simp only [bracketScan, hseg]
    rw [if_pos]
    · rw [upToLastRB_append _ _ hmem]
    · simp
  | cons c cs ih =>
    have hc : ¬c = '[' := fun e => hpre (e ▸ List.mem_cons_self c cs)
    have hcs : '[' ∉ cs := fun h => hpre (List.mem_cons_of_mem c h)
    simp only [List.cons_append, bracketScan]
    rw [if_neg (by simp [hc])]
    exact ih hcs

/-! ### Helper lemmas about the grouping pass -/

theorem pushAll_nil (g : PreferredOrderGrouping) : pushAll [] g = g := by
  simp [pushAll]

theorem pushAll_cons_skip (e : NoteAndName) (l : List NoteAndName) (g : PreferredOrderGrouping)
    (h : (jsGroupKey e.name == some g.key) = false) :
    pushAll (e :: l) g = pushAll l g := by
  simp [pushAll, List.filter_cons, h]

theorem insertNote_of_not_mem (k n : String) (acc : List PreferredOrderGrouping)
    (h : k ∉ acc.map (fun g => g.key)) :
    insertNote k n acc = acc ++ [{ key := k, order := preferredOrderOf k, notes := [n] }] := by
  induction acc with
  | nil => rfl
  | cons g gs ih =>
    have h2 : ¬k = g.key ∧ k ∉ gs.map (fun g => g.key) := by
      simpa [not_or] using h
    have hne : ¬g.key = k := fun e => h2.1 e.symm
    simp only [insertNote, if_neg hne, List.cons_append]
    rw [ih h2.2]

theorem insertNote_map_key (k n : String) (acc : List PreferredOrderGrouping)
    (h : k ∈ acc.map (fun g => g.key)) :
    (insertNote k n acc).map (fun g => g.key) = acc.map (fun g => g.key) := by
  induction acc with
  | nil => simp at h
  | cons g gs ih =>
    by_cases hk : g.key = k
    · simp [insertNote, hk]
    · have hmem : k ∈ gs.map (fun g => g.key) := by
        rcases (by simpa using h : k = g.key ∨ k ∈ gs.map (fun g => g.key)) with h1 | h1
        · exact absurd h1.symm hk
        · exact h1
      simp [insertNote, hk, ih hmem]

theorem insertNote_map_pushAll (e : NoteAndName) (k : String) (l : List NoteAndName)
    (acc : List PreferredOrderGrouping)
    (hk : jsGroupKey e.name = some k)
    (hnd : (acc.map (fun g => g.key)).Nodup)
    (hmem : k ∈ acc.map (fun g => g.key)) :
    (insertNote k e.note acc).map (pushAll l) = acc.map (pushAll (e :: l)) := by
  induction acc with
  | nil => simp at hmem
  | cons g gs ih =>
    by_cases hgk : g.key = k
    · simp only [insertNote, if_pos hgk, List.map_cons]
      congr 1
      · simp [pushAll, List.filter_cons, hk, hgk, List.append_assoc]
      · refine List.map_congr_left (fun g2 hg2 => ?_)
        have hknotin : k ∉ gs.map (fun g => g.key) := by
          rw [List.map_cons, List.nodup_cons] at hnd
          exact fun hm => hnd.1 (hgk ▸ hm)
        have hne : (jsGroupKey e.name == some g2.key) = false := by
          have : ¬k = g2.key := fun e2 =>
            hknotin (e2 ▸ List.mem_map_of_mem (fun g => g.key) hg2)
          simp [hk, this]
        exact (pushAll_cons_skip e l g2 hne).symm
    · have hmem2 : k ∈ gs.map (fun g => g.key) := by
        rcases (by simpa using hmem : k = g.key ∨ k ∈ gs.map (fun g => g.key)) with h1 | h1
        · exact absurd h1.symm hgk
        · exact h1
      have hnd2 : (gs.map (fun g => g.key)).Nodup := by
        rw [List.map_cons, List.nodup_cons] at hnd
        exact hnd.2
      simp only [insertNote, if_neg hgk, List.map_cons, ih hnd2 hmem2]
      congr 1
      have hne : (jsGroupKey e.name == some g.key) = false := by
        have : ¬k = g.key := fun e2 => hgk e2.symm
        simp [hk, this]
      exact (pushAll_cons_skip e l g hne).symm

theorem buildGroupsAux_closed (l : List NoteAndName) :
    ∀ acc : List PreferredOrderGrouping, (acc.map (fun g => g.key)).Nodup →
      buildGroupsAux acc l = acc.map (pushAll l) ++ freshGroups l (acc.map (fun g => g.key)) := by
  induction l with
  | nil =>
    intro acc hnd
    simp only [buildGroupsAux, freshGroups, List.append_nil]
    rw [List.map_congr_left (fun g _ => pushAll_nil g), List.map_id']
  | cons e l ih =>
    intro acc hnd
    cases hkey : jsGroupKey e.name with
    | none =>
      rw [show buildGroupsAux acc (e :: l) = buildGroupsAux acc l from by
        simp [buildGroupsAux, hkey]]
      rw [ih acc hnd]
      congr 1
      · refine List.map_congr_left (fun g _ => ?_)
        exact (pushAll_cons_skip e l g (by simp [hkey])).symm
      · simp [freshGroups, hkey]
    | some k =>
      rw [show buildGroupsAux acc (e :: l) = buildGroupsAux (insertNote k e.note acc) l from by
        simp [buildGroupsAux, hkey]]
      by_cases hmem : k ∈ acc.map (fun g => g.key)
      · have hnd2 : ((insertNote k e.note acc).map (fun g => g.key)).Nodup := by
          rw [insertNote_map_key k e.note acc hmem]; exact hnd
        rw [ih _ hnd2, insertNote_map_key k e.note acc hmem,
          insertNote_map_pushAll e k l acc hkey hnd hmem]
        congr 1
        simp [freshGroups, hkey, hmem]
      · rw [insertNote_of_not_mem k e.note acc hmem]
        have hnd2 : (((acc ++ [({ key := k, order := preferredOrderOf k, notes := [e.note] } : PreferredOrderGrouping)]).map (fun g => g.key)).Nodup) := by
          simp only [List.map_append, List.map_cons, List.map_nil]
          rw [List.nodup_append]
          exact ⟨hnd, List.nodup_singleton k, by simpa [List.disjoint_right] using hmem⟩
        rw [ih _ hnd2]
        simp only [List.map_append, List.map_cons, List.map_nil, List.append_assoc]
        congr 1
        · refine List.map_congr_left (fun g hg => ?_)
          have hne : (jsGroupKey e.name == some g.key) = false := by
            have : ¬k = g.key := fun e2 =>
              hmem (e2 ▸ List.mem_map_of_mem (fun g => g.key) hg)
            simp [hkey, this]
          exact (pushAll_cons_skip e l g hne).symm
        · rw [show freshGroups (e :: l) (acc.map (fun g => g.key))
              = { key := k, order := preferredOrderOf k,
                  notes := e.note :: (l.filter
                    (fun e2 => jsGroupKey e2.name == some k)).map (fun e2 => e2.note) }
                :: freshGroups l (acc.map (fun g => g.key) ++ [k]) from by
            simp [freshGroups, hkey, hmem]]
          simp [pushAll]

theorem buildGroups_eq_freshGroups (notesAndNames : List NoteAndName) :
    buildGroups notesAndNames = freshGroups notesAndNames [] := by
  rw [show buildGroups notesAndNames = buildGroupsAux [] notesAndNames from rfl,
    buildGroupsAux_closed notesAndNames [] (by simp)]
  simp

theorem freshGroups_spec (l : List NoteAndName) :
    ∀ (seen : List String) (g : PreferredOrderGrouping), g ∈ freshGroups l seen →
      g.order = preferredOrderOf g.key ∧ g.key ∉ seen ∧
      g.notes = (l.filter (fun e => jsGroupKey e.name == some g.key)).map (fun e => e.note) := by
  induction l with
  | nil => intro seen g hg; simp [freshGroups] at hg
  | cons e l ih =>
    intro seen g hg
    cases hkey : jsGroupKey e.name with
    | none =>
      rw [show freshGroups (e :: l) seen = freshGroups l seen from by
        simp [freshGroups, hkey]] at hg
      obtain ⟨h1, h2, h3⟩ := ih seen g hg
      exact ⟨h1, h2, by rw [List.filter_cons, if_neg (by simp [hkey])]; exact h3⟩
    | some k =>
      by_cases hmem : k ∈ seen
      · rw [show freshGroups (e :: l) seen = freshGroups l seen from by
          simp [freshGroups, hkey, hmem]] at hg
        obtain ⟨h1, h2, h3⟩ := ih seen g hg
        have hne : ¬k = g.key := fun e2 => h2 (e2 ▸ hmem)
        exact ⟨h1, h2, by rw [List.filter_cons, if_neg (by simp [hkey, hne])]; exact h3⟩
      · rw [show freshGroups (e :: l) seen
            = { key := k, order := preferredOrderOf k,
                notes := e.note :: (l.filter
                  (fun e2 => jsGroupKey e2.name == some k)).map (fun e2 => e2.note) }
              :: freshGroups l (seen ++ [k]) from by
          simp [freshGroups, hkey, hmem]] at hg
        rcases List.mem_cons.mp hg with rfl | hg2
        · refine ⟨rfl, hmem, ?_⟩
          rw [List.filter_cons, if_pos (by simp [hkey])]
          simp
        · obtain ⟨h1, h2, h3⟩ := ih _ g hg2
          have h2a : g.key ∉ seen := fun hm => h2 (List.mem_append_left _ hm)
          have h2b : ¬k = g.key := fun e2 =>
            h2 (List.mem_append_right _ (by simp [e2]))
          exact ⟨h1, h2a, by rw [List.filter_cons, if_neg (by simp [hkey, h2b])]; exact h3⟩

theorem insertNote_notes_perm (k n : String) (acc : List PreferredOrderGrouping) :
    List.Perm (((insertNote k n acc).map (fun g => g.notes)).flatten)
      (((acc.map (fun g => g.notes)).flatten) ++ [n]) := by
  induction acc with
  | nil => simp [insertNote]
  | cons g gs ih =>
    by_cases hk : g.key = k
    · simp only [insertNote, if_pos hk, List.map_cons, List.flatten_cons]
      rw [List.append_assoc, List.append_assoc]
      exact List.Perm.append_left _ List.perm_append_comm
    · simp only [insertNote, if_neg hk, List.map_cons, List.flatten_cons]
      rw [List.append_assoc]
      exact List.Perm.append_left _ ih

theorem buildGroupsAux_notes_perm (l : List NoteAndName) :
    ∀ acc : List PreferredOrderGrouping,
      List.Perm (((buildGroupsAux acc l).map (fun g => g.notes)).flatten)
        (((acc.map (fun g => g.notes)).flatten)
          ++ (l.filter (fun e => (jsGroupKey e.name).isSome)).map (fun e => e.note)) := by
  induction l with
  | nil => intro acc; simp [buildGroupsAux]
  | cons e l ih =>
    intro acc
    cases hkey : jsGroupKey e.name with
    | none =>
      rw [show buildGroupsAux acc (e :: l) = buildGroupsAux acc l from by
        simp [buildGroupsAux, hkey]]
      rw [List.filter_cons, if_neg (by simp [hkey])]
      exact ih acc
    | some k =>
      rw [show buildGroupsAux acc (e :: l) = buildGroupsAux (insertNote k e.note acc) l from by
        simp [buildGroupsAux, hkey]]
      refine (ih _).trans ?_
      refine ((insertNote_notes_perm k e.note acc).append_right _).trans ?_
      rw [List.filter_cons, if_pos (by simp [hkey]), List.map_cons, List.append_assoc,
        List.singleton_append]

/-! ### Helper lemmas about token matching and the explicit-mode filter -/

theorem length_filter_lt {p : α → Bool} {l : List α} (a : α) (ha : a ∈ l) (hpa : p a = false) :
    (l.filter p).length < l.length := by
  induction l with
  | nil => cases ha
  | cons b l ih =>
    rcases List.mem_cons.mp ha with rfl | ha2
    · rw [List.filter_cons, if_neg (by simp [hpa])]
      have := List.length_filter_le p l
      simp only [List.length_cons]
      omega
    · by_cases hpb : p b = true
      · rw [List.filter_cons, if_pos hpb]
        simp only [List.length_cons]
        exact Nat.succ_lt_succ (ih ha2)
      · rw [List.filter_cons, if_neg hpb]
        have := List.length_filter_le p l
        simp only [List.length_cons]
        omega

theorem firstDigitRun_isSome {l : List Char} (c : Char) (hc : c ∈ l) (hcd : c.isDigit = true) :
    (firstDigitRun l).isSome = true := by
  unfold firstDigitRun
  cases hdw : l.dropWhile (fun c => !c.isDigit) with
  | nil =>
    have hall := List.dropWhile_eq_nil_iff.mp hdw c hc
    simp [hcd] at hall
  | cons d rest => simp

theorem explicitOrderAux_closed (notesAndNames : List NoteAndName) (l : List String) :
    ∀ acc : List String,
      explicitOrderAux notesAndNames acc l
        = acc ++ (l.filter (fun v => notesAndNames.any (fun e => e.note == v))).map
            (fun v => "NO " ++ v) := by
  induction l with
  | nil => intro acc; simp [explicitOrderAux]
  | cons v l ih =>
    intro acc
    by_cases hv : notesAndNames.any (fun e => e.note == v) = true
    · rw [show explicitOrderAux notesAndNames acc (v :: l)
          = explicitOrderAux notesAndNames (acc ++ ["NO " ++ v]) l from by
        simp [explicitOrderAux, hv]]
      rw [ih, List.filter_cons, if_pos hv, List.map_cons, List.append_assoc,
        List.singleton_append]
    · rw [show explicitOrderAux notesAndNames acc (v :: l)
          = explicitOrderAux notesAndNames acc l from by simp [explicitOrderAux, hv]]
      rw [ih, List.filter_cons, if_neg hv]

/-! ### Claim theorems -/

/-- Counterexample to claim C1 as stated: for the name "Tom [A] [B]" the
claim predicts the group key "[A]" (first open bracket to the next close
bracket), but the greedy match of the source yields "[A] [B]" (first open
bracket to the last close bracket). -/
theorem jsGroupKey_two_pairs :
    jsGroupKey "Tom [A] [B]" ≠ some "[A]" ∧ jsGroupKey "Tom [A] [B]" = some "[A] [B]" := by
  constructor
  · decide
  · decide

/-- Claim C1 (amended): in inferred mode, for every entry name of the form
pre ++ left-bracket ++ mid ++ right-bracket ++ post with no left bracket in
pre, no newline in mid and no right bracket in post, the extracted group
key runs from that first left bracket up to and including the LAST right
bracket (the greedy match), not merely the next one. -/
theorem jsGroupKey_greedy (pre mid post : List Char)
    (hpre : '[' ∉ pre) (hmid : '\n' ∉ mid) (hpost : ']' ∉ post) :
    jsGroupKey (List.asString (pre ++ '[' :: (mid ++ ']' :: post)))
      = some (List.asString ('[' :: (mid ++ [']']))) := by
  show (bracketScan (List.asString (pre ++ '[' :: (mid ++ ']' :: post))).data).map
      List.asString = _
  rw [show (List.asString (pre ++ '[' :: (mid ++ ']' :: post))).data
      = pre ++ '[' :: (mid ++ ']' :: post) from rfl]
  rw [bracketScan_append pre mid post hpre hmid hpost]
  rfl

/-- Witness for C1's amended theorem at the concrete name "x[A] [B]". -/
theorem jsGroupKey_greedy_witness :
    jsGroupKey (List.asString ("x".data ++ '[' :: ("A] [B".data ++ ']' :: [])))
      = some (List.asString ('[' :: ("A] [B".data ++ [']']))) :=
  jsGroupKey_greedy "x".data "A] [B".data [] (by decide) (by decide) (by decide)

/-- Counterexample to claim C2 as stated: on the specification's example
entries the resolver does NOT return NO 3, NO 2, NO 1. -/
theorem groupByPreferred_example_ne :
    groupByPreferred exampleEntries ≠ ["NO 3", "NO 2", "NO 1"] := by
  decide

/-- Claim C2 (amended): for the example entries in inferred mode with the
literal PREFERRED_ORDERS table, the resolver returns NO 3 (rank -1,
first), then NO 1 (kick, rank 29), then NO 2 (hat, rank 30): the reversed
table ranks hat above kick, and the ascending sort therefore emits kick's
group before hat's. -/
theorem groupByPreferred_example :
    groupByPreferred exampleEntries = ["NO 3", "NO 1", "NO 2"] := by
  decide

/-- Claim C3: in inferred mode the output is the concatenation of the
sorted groups' note lines; groups with both ranks nonnegative appear in
strictly ascending rank order; every rank -1 group precedes every group of
nonnegative rank; and each group's notes are exactly the notes of its
entries in input order. -/
theorem groupByPreferred_rank_monotone (entries : List NoteAndName) :
    groupByPreferred entries
        = ((inferredGroups entries).map (fun g => g.notes.map (fun note => "NO " ++ note))).flatten
      ∧ (∀ (i j : Nat) (a b : PreferredOrderGrouping),
          (inferredGroups entries)[i]? = some a →
          (inferredGroups entries)[j]? = some b →
          0 ≤ a.order → 0 ≤ b.order → a.order < b.order → i < j)
      ∧ (∀ (i j : Nat) (a b : PreferredOrderGrouping),
          (inferredGroups entries)[i]? = some a →
          (inferredGroups entries)[j]? = some b →
          a.order = -1 → 0 ≤ b.order → i < j)
      ∧ (∀ g ∈ inferredGroups entries,
          g.notes = (entries.filter (fun e => jsGroupKey e.name == some g.key)).map
            (fun e => e.note)) := by
  have hs : (inferredGroups entries).Pairwise groupLe :=
    List.sorted_insertionSort groupLe (buildGroups entries)
  have hpw := List.pairwise_iff_getElem.mp hs
  refine ⟨rfl, ?_, ?_, ?_⟩
  · intro i j a b ha hb h0a h0b hab
    obtain ⟨hi, hia⟩ := List.getElem?_eq_some_iff.mp ha
    obtain ⟨hj, hjb⟩ := List.getElem?_eq_some_iff.mp hb
    by_contra hij
    rcases Nat.lt_or_ge j i with hlt | hge
    · have hle := hpw j i hj hi hlt
      rw [hjb, hia] at hle
      simp only [groupLe, compareGroups] at hle
      split_ifs at hle <;> omega
    · have hij2 : i = j := by omega
      subst hij2
      have hab2 : a = b := by rw [← hia, ← hjb]
      rw [hab2] at hab
      omega
  · intro i j a b ha hb hm1 h0b
    obtain ⟨hi, hia⟩ := List.getElem?_eq_some_iff.mp ha
    obtain ⟨hj, hjb⟩ := List.getElem?_eq_some_iff.mp hb
    by_contra hij
    rcases Nat.lt_or_ge j i with hlt | hge
    · have hle := hpw j i hj hi hlt
      rw [hjb, hia] at hle
      simp only [groupLe, compareGroups] at hle
      split_ifs at hle <;> omega
    · have hij2 : i = j := by omega
      subst hij2
      have hab2 : a = b := by rw [← hia, ← hjb]
      rw [hab2] at hm1
      omega
  · intro g hg
    have hg2 : g ∈ buildGroups entries :=
      (List.perm_insertionSort groupLe (buildGroups entries)).subset hg
    rw [buildGroups_eq_freshGroups] at hg2
    exact (freshGroups_spec entries [] g hg2).2.2

/-- Witness for C3 on the example entries: the kick group (rank 29) sits
at index 1 and the hat group (rank 30) at index 2 of the sorted groups. -/
theorem groupByPreferred_rank_monotone_witness :
    ((inferredGroups exampleEntries)[1]? = some ⟨"[Kick]", 29, ["1"]⟩
        ∧ (inferredGroups exampleEntries)[2]? = some ⟨"[Hat]", 30, ["2"]⟩)
      ∧ (1 : Nat) < 2 :=
  ⟨⟨by decide, by decide⟩,
    (groupByPreferred_rank_monotone exampleEntries).2.1 1 2 ⟨"[Kick]", 29, ["1"]⟩
      ⟨"[Hat]", 30, ["2"]⟩ (by decide) (by decide) (by decide) (by decide) (by decide)⟩

/-- Claim C4: a preference token containing at least one digit matches a
group key only if the first digit run of the key equals (as a string) the
first digit run of the token; in particular the key containing the digit 2
does not match the token crash 1. -/
theorem instMatches_numeric_exact :
    (∀ key inst : String, inst.data.any Char.isDigit = true →
        instMatches key inst = true →
        firstDigitRun key.data = firstDigitRun inst.data
          ∧ (firstDigitRun inst.data).isSome = true)
      ∧ instMatches "[Crash 2]" "crash 1" = false := by
  constructor
  · intro key inst hd hm
    obtain ⟨c, hc, hcd⟩ := List.any_eq_true.mp hd
    have hlt : (inst.data.filter (fun c => !c.isDigit)).length < inst.data.length :=
      length_filter_lt c hc (by simp [hcd])
    have hsome := firstDigitRun_isSome c hc hcd
    simp only [instMatches] at hm
    split_ifs at hm with h1 h2
    · rw [List.length_map] at h2
      omega
    · exact ⟨of_decide_eq_true hm, hsome⟩
  · decide

/-- Witness for C4 at key "[Crash 1]" and token "crash 1". -/
theorem instMatches_numeric_exact_witness :
    ("crash 1".data.any Char.isDigit = true ∧ instMatches "[Crash 1]" "crash 1" = true)
      ∧ (firstDigitRun "[Crash 1]".data = firstDigitRun "crash 1".data
          ∧ (firstDigitRun "crash 1".data).isSome = true) :=
  ⟨⟨by decide, by decide⟩,
    instMatches_numeric_exact.1 "[Crash 1]" "crash 1" (by decide) (by decide)⟩

/-- Claim C5: a preference token with no digits matches any group key whose
lower-casing contains the token's lower-cased base name as a substring,
unconditionally, regardless of digits in the key. -/
theorem instMatches_bare_token (key inst : String)
    (hnd : inst.data.all (fun c => !c.isDigit) = true)
    (hinc : jsIncludes (inst.data.map Char.toLower) (key.data.map Char.toLower) = true) :
    instMatches key inst = true := by
  have hfilter : inst.data.filter (fun c => !c.isDigit) = inst.data :=
    List.filter_eq_self.mpr (fun a ha => List.all_eq_true.mp hnd a ha)
  simp only [instMatches, hfilter]
  rw [if_pos hinc, if_pos (by rw [List.length_map])]

/-- Witness for C5 at key "[Hat 2]" and the digit-free token "hat". -/
theorem instMatches_bare_token_witness :
    ("hat".data.all (fun c => !c.isDigit) = true
        ∧ jsIncludes ("hat".data.map Char.toLower) ("[Hat 2]".data.map Char.toLower) = true)
      ∧ instMatches "[Hat 2]" "hat" = true :=
  ⟨⟨by decide, by decide⟩, instMatches_bare_token "[Hat 2]" "hat" (by decide) (by decide)⟩

/-- Claim C6: entries without a bracketed substring contribute nothing to
the grouped output (removing them leaves the resolver output unchanged),
while every entry still appears at its own position in the flat note/name
block. -/
theorem ungroupable_dropped (entries : List NoteAndName) :
    groupByPreferred entries
        = groupByPreferred (entries.filter (fun e => (jsGroupKey e.name).isSome))
      ∧ ∀ i : Nat, (notesAndNamesAsStrings entries)[i]?
          = (entries[i]?).map (fun e => e.note ++ " " ++ e.name) := by
  constructor
  · have h : ∀ (l : List NoteAndName) (acc : List PreferredOrderGrouping),
        buildGroupsAux acc l
          = buildGroupsAux acc (l.filter (fun e => (jsGroupKey e.name).isSome)) := by
      intro l
      induction l with
      | nil => intro acc; rfl
      | cons e l ih =>
        intro acc
        cases hkey : jsGroupKey e.name with
        | none =>
          rw [List.filter_cons, if_neg (by simp [hkey])]
          rw [show buildGroupsAux acc (e :: l) = buildGroupsAux acc l from by
            simp [buildGroupsAux, hkey]]
          exact ih acc
        | some k =>
          rw [List.filter_cons, if_pos (by simp [hkey])]
          simp only [buildGroupsAux, hkey]
          exact ih _
    show ((inferredGroups entries).map _).flatten = ((inferredGroups _).map _).flatten
    unfold inferredGroups buildGroups
    rw [h entries []]
  · intro i
    simp [notesAndNamesAsStrings]

/-- Claim C7: in explicit mode the resolver output is the explicit order
list filtered to identifiers equal to some entry's note, in source order,
each line prefixed with the marker; on the example this gives NO 2 then
NO 1. -/
theorem explicitOrder_replayed (entries : List NoteAndName) (explicitOrder : List String) :
    explicitOrderItems entries explicitOrder
        = (explicitOrder.filter (fun v => entries.any (fun e => e.note == v))).map
            (fun v => "NO " ++ v)
      ∧ explicitOrderItems [⟨"1", "Kick"⟩, ⟨"2", "Snare"⟩] ["2", "1"] = ["NO 2", "NO 1"] := by
  refine ⟨?_, by decide⟩
  rw [show explicitOrderItems entries explicitOrder
      = explicitOrderAux entries [] explicitOrder from rfl]
  rw [explicitOrderAux_closed entries explicitOrder []]
  simp

/-- Claim C8: in explicit mode conversion succeeds exactly when the
filtered explicit-order list has the same length as the entries list (a
mismatch is the assertion failure, modelled by none); in inferred mode no
length check is performed and conversion always yields a payload. -/
theorem explicit_length_assertion (headerName : Option String) (entries : List NoteAndName)
    (explicitOrder : List String) :
    ((convertDRMFileToText headerName entries false explicitOrder).isSome = true
        ↔ (explicitOrderItems entries explicitOrder).length = entries.length)
      ∧ (convertDRMFileToText headerName entries true explicitOrder).isSome = true := by
  constructor
  · by_cases h : (explicitOrderItems entries explicitOrder).length = entries.length
    · simp [convertDRMFileToText, h]
    · simp [convertDRMFileToText, h]
  · simp [convertDRMFileToText]

/-- Counterexample to claim C9 as stated: converting a document with no
header field does not produce "# " (hash and a space with an empty header)
as the first payload line. -/
theorem convert_missing_header_not_empty :
    (convertDRMFileToText none [⟨"1", "Kick"⟩] false ["1"]).map firstLine ≠ some "# " := by
  decide

/-- Claim C9 (amended): for every document lacking the header field the
conversion still succeeds, and the first line of the payload is the hash
marker followed by the string "undefined" (JavaScript template-literal
interpolation of an undefined value), i.e. exactly "# undefined". -/
theorem payload_missing_header_line (entries : List NoteAndName) (orderItems : List String) :
    firstLine (payloadText none entries orderItems) = "# undefined" := rfl

/-- Claim C10: in inferred mode the resolver output is a permutation of
one NO line per bracket-tagged entry (no line lost, none duplicated), so
its length is the number of bracket-tagged entries. -/
theorem groupByPreferred_complete (entries : List NoteAndName) :
    List.Perm (groupByPreferred entries)
        ((entries.filter (fun e => (jsGroupKey e.name).isSome)).map (fun e => "NO " ++ e.note))
      ∧ (groupByPreferred entries).length
          = (entries.filter (fun e => (jsGroupKey e.name).isSome)).length := by
  have hperm1 : List.Perm ((inferredGroups entries).map (fun g => g.notes))
      ((buildGroups entries).map (fun g => g.notes)) :=
    List.Perm.map _ (List.perm_insertionSort groupLe (buildGroups entries))
  have hperm3 := buildGroupsAux_notes_perm entries []
  simp only [List.map_nil, List.flatten_nil, List.nil_append] at hperm3
  have hchain : List.Perm (((inferredGroups entries).map (fun g => g.notes)).flatten)
      ((entries.filter (fun e => (jsGroupKey e.name).isSome)).map (fun e => e.note)) :=
    hperm1.flatten.trans hperm3
  have h4 := List.Perm.map (fun s => "NO " ++ s) hchain
  rw [List.map_flatten] at h4
  simp only [List.map_map] at h4
  refine ⟨h4, h4.length_eq.trans ?_⟩
  rw [List.length_map]

end DrmConvert
